import Mathlib

/-!
Shallow embedding of `src/utils/ai.js` (JobPortal backend).

Modelling conventions:
* JavaScript strings are `List Char` (`Str` below); `toLowerCase` is ASCII
  case folding (`Char.toLower`), which covers every constant the source
  compares against.
* JavaScript numbers are exact rationals `ℚ`: every constant in the source
  (0.3, 0.9, 0.2, 0.1, 0.8, the weights 0.4/0.3/0.2/0.1, the year ranges)
  is a small decimal and no claim depends on binary floating-point rounding.
* Fields the source guards with `|| []` / `|| {}` or reads optionally
  (`exp.endDate || new Date()`) are `Option` with an explicit default.
  The one unguarded access to a possibly-missing field, `job.location`
  in `calculateLocationMatch`, makes that function (and its caller
  `calculateMatchScore`) `Option`-valued: `none` models the thrown
  `TypeError`.
* Dates are rationals (milliseconds since the epoch); the source's implicit
  `new Date()` is an explicit `now` parameter (the spec's design notes ask
  for exactly this injection).
* The `async` wrappers and the unused `natural` / `compromise` imports
  (`nlp(text.toLowerCase())` is computed and never read) have no
  behavioural content and are dropped.
* `escapeRegExp` turns a skill into a regex literal; its semantic content
  is absorbed into the occurrence counter, which therefore counts plain
  (case-insensitive, non-overlapping) substring occurrences.
* `Array.prototype.sort` is stable per ECMAScript 2019; the comparator
  `(a, b) => b.confidence - a.confidence` is modelled by a stable
  insertion sort descending on `confidence`.
-/

namespace JobPortal

/-- JavaScript strings as lists of characters. -/
abbrev Str := List Char

/-- Model of `String.prototype.toLowerCase` (ASCII case folding). -/
def lowerStr (s : Str) : Str := s.map Char.toLower

/-- Model of `String.prototype.includes`: case-sensitive substring test. -/
def jsIncludes : Str → Str → Bool
  | [], needle => needle.isEmpty
  | c :: t, needle => needle.isPrefixOf (c :: t) || jsIncludes t needle

/-- Case-insensitive prefix test: a case-insensitive regex literal matching
at the start of `hay`. -/
def startsWithCI (needle hay : Str) : Bool :=
  (lowerStr needle).isPrefixOf (lowerStr hay)

/-- Helper for `countOcc`, on already-lowercased text; `fuel` bounds the
recursion (one character is consumed per step). -/
def countOccAux (needle : Str) : Nat → Str → Nat
  | 0, _ => 0
  | _ + 1, [] => 0
  | fuel + 1, c :: t =>
    if needle.isPrefixOf (c :: t) then
      1 + countOccAux needle fuel ((c :: t).drop needle.length)
    else
      countOccAux needle fuel t

/-- Model of `(text.match(new RegExp(escapeRegExp(skill), 'gi')) || []).length`:
the number of non-overlapping, case-insensitive occurrences of the literal
`skill` in `text` found by a left-to-right scan.  The empty pattern matches
once at every position, hence `length + 1`. -/
def countOcc (text skill : Str) : Nat :=
  if skill.isEmpty then text.length + 1
  else countOccAux (lowerStr skill) (text.length + 1) (lowerStr text)

/-! ## Data model (section 3 of the spec, as consumed by `ai.js`) -/

/-- Output record of the extractor (`name`, `level`, `aiExtracted`,
`confidence`), as pushed by `extractSkillsFromText`. -/
structure SkillRecord where
  name : Str
  level : Str
  aiExtracted : Bool
  confidence : ℚ
deriving DecidableEq

/-- A user skill as read by `calculateSkillsMatch` (only `.name` is read). -/
structure UserSkill where
  name : Str
deriving DecidableEq

/-- A job-required skill: `{ name, mandatory }`. -/
structure RequiredSkill where
  name : Str
  mandatory : Bool
deriving DecidableEq

/-- An experience entry: `startDate` (ms since epoch), optional `endDate`
(absent meaning "ongoing", read as `new Date()`). -/
structure ExperienceEntry where
  startDate : ℚ
  endDate : Option ℚ
deriving DecidableEq

/-- `user.preferences`: optional `locations` and `jobTypes` lists. -/
structure Preferences where
  locations : Option (List Str)
  jobTypes : Option (List Str)
deriving DecidableEq

/-- A user profile as read by the match scorer. -/
structure UserProfile where
  skills : Option (List UserSkill)
  experience : Option (List ExperienceEntry)
  preferences : Option Preferences
deriving DecidableEq

/-- A job posting as read by the match scorer.  `location` is `Option`
because the source reads it without a guard (`job.location.toLowerCase()`). -/
structure JobPosting where
  requiredSkills : Option (List RequiredSkill)
  experienceLevel : Str
  remote : Bool
  location : Option Str
  type : Str
deriving DecidableEq

/-! ## Match scorer (`calculateSkillsMatch` … `calculateMatchScore`) -/

/-- One step of the `requiredSkills.forEach` accumulation in
`calculateSkillsMatch`: the pair is `(matchCount, totalWeight)`. -/
def skillsFold (userSkillNames : List Str) (acc : ℚ × ℚ) (reqSkill : RequiredSkill) : ℚ × ℚ :=
  let weight : ℚ := if reqSkill.mandatory then 2 else 1
  let totalWeight := acc.2 + weight
  let matchCount :=
    if userSkillNames.contains (lowerStr reqSkill.name) then acc.1 + weight else acc.1
  (matchCount, totalWeight)

/-- `calculateSkillsMatch(userSkills, requiredSkills)` from `ai.js`. -/
def calculateSkillsMatch (userSkills : List UserSkill) (requiredSkills : List RequiredSkill) : ℚ :=
  if userSkills.isEmpty || requiredSkills.isEmpty then 0
  else
    let userSkillNames := userSkills.map (fun s => lowerStr s.name)
    let acc := requiredSkills.foldl (skillsFold userSkillNames) (0, 0)
    if 0 < acc.2 then acc.1 / acc.2 else 0

/-- Milliseconds per year as used by the source: `1000 * 60 * 60 * 24 * 365`. -/
def msPerYear : ℚ := 1000 * 60 * 60 * 24 * 365

/-- The body of the `reduce` in `calculateExperienceMatch`: elapsed years of
one entry (missing `endDate` read as `now`), floored at 0 per entry. -/
def entryYears (now : ℚ) (exp : ExperienceEntry) : ℚ :=
  let endDate := exp.endDate.getD now
  let startDate := exp.startDate
  let years := (endDate - startDate) / msPerYear
  max 0 years

/-- The `userExperience.reduce((total, exp) => …, 0)` accumulation. -/
def totalYearsOf (now : ℚ) (entries : List ExperienceEntry) : ℚ :=
  entries.foldl (fun total exp => total + entryYears now exp) 0

/-- The `experienceRanges` table with its `|| [0, 100]` default. -/
def experienceRanges (level : Str) : ℚ × ℚ :=
  if level = "entry".toList then (0, 2)
  else if level = "mid".toList then (2, 5)
  else if level = "senior".toList then (5, 10)
  else if level = "executive".toList then (10, 100)
  else (0, 100)

/-- `calculateExperienceMatch(user, job)` from `ai.js`, with the implicit
`new Date()` passed in as `now`. -/
def calculateExperienceMatch (now : ℚ) (user : UserProfile) (job : JobPosting) : ℚ :=
  let userExperience := user.experience.getD []
  if userExperience.isEmpty then 1/2
  else
    let totalYears := totalYearsOf now userExperience
    let range := experienceRanges job.experienceLevel
    let minYears := range.1
    let maxYears := range.2
    if minYears ≤ totalYears ∧ totalYears ≤ maxYears then 1
    else if totalYears < minYears then max 0 (totalYears / minYears)
    else max (7/10) (1 - (totalYears - maxYears) / maxYears)

/-- `user.preferences || {}` followed by `.locations || []`. -/
def prefLocsOf (user : UserProfile) : List Str :=
  match user.preferences with
  | none => []
  | some p => p.locations.getD []

/-- `user.preferences || {}` followed by `.jobTypes || []`. -/
def prefTypesOf (user : UserProfile) : List Str :=
  match user.preferences with
  | none => []
  | some p => p.jobTypes.getD []

/-- `calculateLocationMatch(user, job)` from `ai.js`.  `none` models the
`TypeError` thrown by `job.location.toLowerCase()` when `location` is
absent and the function reaches that read. -/
def calculateLocationMatch (user : UserProfile) (job : JobPosting) : Option ℚ :=
  if job.remote then some 1
  else
    let preferredLocations := prefLocsOf user
    if preferredLocations.isEmpty then some (1/2)
    else
      match job.location with
      | none => none
      | some loc0 =>
        let jobLocation := lowerStr loc0
        some (if preferredLocations.any (fun loc =>
            jsIncludes jobLocation (lowerStr loc) || jsIncludes (lowerStr loc) jobLocation)
          then 1 else 3/10)

/-- `calculateJobTypeMatch(user, job)` from `ai.js`. -/
def calculateJobTypeMatch (user : UserProfile) (job : JobPosting) : ℚ :=
  let preferredTypes := prefTypesOf user
  if preferredTypes.isEmpty then 8/10
  else if preferredTypes.contains job.type then 1 else 1/2

/-- The final `weightSum > 0 ? totalScore / weightSum : 0` of
`calculateMatchScore`. -/
def matchCombine (totalScore weightSum : ℚ) : ℚ :=
  if 0 < weightSum then totalScore / weightSum else 0

/-- `calculateMatchScore(user, job)` from `ai.js` (the `async` wrapper is
dropped; `now` is the injected current date).  The accumulations
`totalScore += …; weightSum += …` are spelled out in source order. -/
def calculateMatchScore (now : ℚ) (user : UserProfile) (job : JobPosting) : Option ℚ :=
  let skillsScore := calculateSkillsMatch (user.skills.getD []) (job.requiredSkills.getD [])
  let experienceScore := calculateExperienceMatch now user job
  (calculateLocationMatch user job).map (fun locationScore =>
    let typeScore := calculateJobTypeMatch user job
    let totalScore := skillsScore * (4/10) + experienceScore * (3/10)
      + locationScore * (2/10) + typeScore * (1/10)
    let weightSum : ℚ := 4/10 + 3/10 + 2/10 + 1/10
    matchCombine totalScore weightSum)

/-! ## Skill extraction: context windows and confidence -/

/-- Characters matched by the regex metacharacter `.` in JavaScript
(without the `s` flag): everything except the four line terminators. -/
def isDotChar (c : Char) : Bool :=
  !(c == '\n' || c == '\r' || c == '\u2028' || c == '\u2029')

/-- All characters of a fragment are matchable by `.`. -/
def allDots (l : Str) : Bool := l.all isDotChar

/-- Greedy search for the left context length in `(.{0,50})skill…`: the
largest `k ≤ kmax` such that `k` dot-matchable characters can be consumed
and the skill then matches case-insensitively.  Mirrors the backtracking of
a greedy bounded quantifier. -/
def findGreedyK (skill hay : Str) : Nat → Option Nat
  | 0 => if startsWithCI skill hay then some 0 else none
  | k + 1 =>
    if decide (k + 1 ≤ hay.length) && allDots (hay.take (k + 1))
        && startsWithCI skill (hay.drop (k + 1)) then
      some (k + 1)
    else
      findGreedyK skill hay k

/-- Length of the match of `(.{0,50}skill.{0,50})` starting exactly at the
head of `hay`, if any: greedy left context, the skill, then a greedy right
context of up to 50 dot-matchable characters. -/
def matchAt (skill hay : Str) : Option Nat :=
  match findGreedyK skill hay 50 with
  | none => none
  | some k =>
    let rest := hay.drop (k + skill.length)
    some (k + skill.length + min 50 (rest.takeWhile isDotChar).length)

/-- The global (`g` flag) scan of the context regex: leftmost match, consume
it, continue after it (advancing one character past an empty match, and
stopping after a match at the very end, as `lastIndex` overruns). -/
def contextScan (skill : Str) : Nat → Str → List Str
  | 0, _ => []
  | fuel + 1, hay =>
    match matchAt skill hay, hay with
    | some len, [] => [hay.take len]
    | some len, _ :: _ => hay.take len :: contextScan skill fuel (hay.drop (max len 1))
    | none, [] => []
    | none, _ :: t => contextScan skill fuel t

/-- `text.match(new RegExp(`(.{0,50}skill.{0,50})`, 'gi'))`, as a list
(`null` becomes the empty list). -/
def contextMatches (text skill : Str) : List Str :=
  contextScan skill (text.length + 1) text

/-- `matches.join(' ')`. -/
def joinSpace : List Str → Str
  | [] => []
  | [m] => m
  | m :: ms => m ++ ' ' :: joinSpace ms

/-- `getSkillContext(text, skill)` from `ai.js`: the space-joined matches,
lowercased (empty when there is no match). -/
def getSkillContext (text skill : Str) : Str :=
  lowerStr (joinSpace (contextMatches text skill))

/-- The first context boost test of `calculateConfidence`:
`context.includes('experience') || context.includes('years')`. -/
def hasExpBoost (context : Str) : Bool :=
  jsIncludes context ("experience".toList) || jsIncludes context ("years".toList)

/-- The second context boost test of `calculateConfidence`:
`context.includes('expert') || context.includes('advanced')`. -/
def hasAdvBoost (context : Str) : Bool :=
  jsIncludes context ("expert".toList) || jsIncludes context ("advanced".toList)

/-- `calculateConfidence(text, skill)` from `ai.js`. -/
def calculateConfidence (text skill : Str) : ℚ :=
  let occurrences := countOcc text skill
  let context := getSkillContext text skill
  let confidence0 : ℚ := min ((occurrences : ℚ) * (3/10)) (9/10)
  let confidence1 := confidence0 + (if hasExpBoost context then 2/10 else 0)
  let confidence2 := confidence1 + (if hasAdvBoost context then 1/10 else 0)
  min confidence2 1

/-! ## Skill extraction: dictionary pass -/

/-- The `TECH_SKILLS` table, in source order. -/
def TECH_SKILLS : List Str :=
  ["javascript".toList, "python".toList, "java".toList, "react".toList,
   "node.js".toList, "express".toList, "mongodb".toList, "sql".toList,
   "postgresql".toList, "mysql".toList, "html".toList, "css".toList,
   "typescript".toList, "angular".toList, "vue.js".toList, "php".toList,
   "ruby".toList, "go".toList, "rust".toList, "c++".toList, "c#".toList,
   "swift".toList, "kotlin".toList, "flutter".toList, "react native".toList,
   "docker".toList, "kubernetes".toList, "aws".toList, "azure".toList,
   "gcp".toList, "git".toList, "machine learning".toList, "ai".toList,
   "blockchain".toList, "solidity".toList, "web3".toList,
   "tensorflow".toList, "pytorch".toList, "scikit-learn".toList,
   "pandas".toList, "numpy".toList]

/-- The `TECH_SKILLS.forEach` pass: for each dictionary entry contained in
the lowercased text (the entries are already lowercase), push a record with
confidence computed by `calculateConfidence`. -/
def dictPass (text : Str) : List SkillRecord :=
  (TECH_SKILLS.filter (fun skill => jsIncludes (lowerStr text) skill)).map
    (fun skill => ⟨skill, "Intermediate".toList, true, calculateConfidence text skill⟩)

/-! ## Skill extraction: regex pass

The five patterns all have the shape `\b(alt1|…|altN)SUFFIX\b` with the
`gi` flags, where `SUFFIX` is one of `\.?js` (pattern 1), `\.?js?`
(pattern 2 — note the `?` binds only to `s`, so the `j` is mandatory) or
empty (patterns 3–5).  A pattern is modelled by its alternatives in source
order and the list of concrete suffix strings in the engine's backtracking
order (greedy optionals first). -/

/-- `\w` of JavaScript: ASCII letters, digits and underscore. -/
def isWordChar (c : Char) : Bool :=
  let n := c.toNat
  decide ((97 ≤ n ∧ n ≤ 122) ∨ (65 ≤ n ∧ n ≤ 90) ∨ (48 ≤ n ∧ n ≤ 57) ∨ n = 95)

/-- Word-ness of an optional character (out of range counts as non-word). -/
def optIsWord (c : Option Char) : Bool := c.elim false isWordChar

/-- `\b` between two (possibly absent) adjacent characters. -/
def wordBoundaryB (a b : Option Char) : Bool := optIsWord a != optIsWord b

/-- Try the suffix options in backtracking order after an alternative of
length `altLen`; on success return the total match length, having checked
the trailing `\b`. -/
def trySfxs (sfxs : List Str) (altLen : Nat) (hay : Str) : Option Nat :=
  sfxs.findSome? (fun sfx =>
    if startsWithCI sfx (hay.drop altLen) then
      let e := altLen + sfx.length
      if wordBoundaryB hay[e-1]? hay[e]? then some e else none
    else none)

/-- Match one pattern at the head of `hay`: alternatives in source order,
each with its suffix options. -/
def matchPat (alts sfxs : List Str) (hay : Str) : Option Nat :=
  alts.findSome? (fun alt =>
    if startsWithCI alt hay then trySfxs sfxs alt.length hay else none)

/-- Global scan of one pattern over the text; `prev` is the character just
before the current position, for the leading `\b`. -/
def patScan (alts sfxs : List Str) : Nat → Option Char → Str → List Str
  | 0, _, _ => []
  | fuel + 1, prev, hay =>
    match (if wordBoundaryB prev hay[0]? then matchPat alts sfxs hay else none) with
    | some len =>
      hay.take len :: patScan alts sfxs fuel hay[len-1]? (hay.drop len)
    | none =>
      match hay with
      | [] => []
      | c :: t => patScan alts sfxs fuel (some c) t

/-- `/\b(react|angular|vue|svelte|ember)\.?js\b/gi`. -/
def patAlts1 : List Str :=
  ["react".toList, "angular".toList, "vue".toList, "svelte".toList, "ember".toList]

/-- Suffix options of `\.?js` in backtracking order. -/
def sfx1 : List Str := [".js".toList, "js".toList]

/-- `/\b(node|express|django|flask|spring|laravel)\.?js?\b/gi`. -/
def patAlts2 : List Str :=
  ["node".toList, "express".toList, "django".toList, "flask".toList,
   "spring".toList, "laravel".toList]

/-- Suffix options of `\.?js?` in backtracking order (`j` mandatory). -/
def sfx2 : List Str := [".js".toList, ".j".toList, "js".toList, "j".toList]

/-- `/\b(mongodb|postgresql|mysql|redis|elasticsearch)\b/gi`. -/
def patAlts3 : List Str :=
  ["mongodb".toList, "postgresql".toList, "mysql".toList, "redis".toList,
   "elasticsearch".toList]

/-- `/\b(docker|kubernetes|jenkins|travis|circleci)\b/gi`. -/
def patAlts4 : List Str :=
  ["docker".toList, "kubernetes".toList, "jenkins".toList, "travis".toList,
   "circleci".toList]

/-- `/\b(aws|azure|gcp|heroku|vercel|netlify)\b/gi`. -/
def patAlts5 : List Str :=
  ["aws".toList, "azure".toList, "gcp".toList, "heroku".toList,
   "vercel".toList, "netlify".toList]

/-- The empty suffix (patterns 3–5). -/
def sfxNone : List Str := [[]]

/-- All regex-pass matches, per pattern in source order (the
`patterns.forEach` loop over `text.match(pattern)`). -/
def patternMatchList (text : Str) : List Str :=
  patScan patAlts1 sfx1 (text.length + 1) none text
  ++ patScan patAlts2 sfx2 (text.length + 1) none text
  ++ patScan patAlts3 sfxNone (text.length + 1) none text
  ++ patScan patAlts4 sfxNone (text.length + 1) none text
  ++ patScan patAlts5 sfxNone (text.length + 1) none text

/-- `match.toLowerCase().replace(/[^\w]/g, '')`: the canonical name of a
regex-pass match. -/
def canonName (m : Str) : Str := (lowerStr m).filter isWordChar

/-- The body of the regex-pass `matches.forEach`: push a constant-0.8
record unless a record with the canonical name is already present. -/
def pushMatch (acc : List SkillRecord) (m : Str) : List SkillRecord :=
  let skill := canonName m
  if acc.any (fun s => decide (s.name = skill)) then acc
  else acc ++ [⟨skill, "Intermediate".toList, true, 8/10⟩]

/-- The `extractedSkills` array after both passes. -/
def extractedSkills (text : Str) : List SkillRecord :=
  (patternMatchList text).foldl pushMatch (dictPass text)

/-- The `filter`/`findIndex` dedup of `extractSkillsFromText`: keep each
record whose index is the first index carrying its name, i.e. the first
occurrence of every name. -/
def keepFirstAux : List Str → List SkillRecord → List SkillRecord
  | _, [] => []
  | seen, x :: xs =>
    if x.name ∈ seen then keepFirstAux seen xs
    else x :: keepFirstAux (x.name :: seen) xs

/-- `uniqueSkills` from `ai.js`. -/
def uniqueSkills (text : Str) : List SkillRecord :=
  keepFirstAux [] (extractedSkills text)

/-- Stable insertion (descending by confidence): a record moves before an
element exactly when its confidence is strictly larger, so earlier records
stay first on ties — the behaviour of the ES2019-stable
`sort((a, b) => b.confidence - a.confidence)`. -/
def insertDesc (a : SkillRecord) : List SkillRecord → List SkillRecord
  | [] => [a]
  | b :: l => if b.confidence ≤ a.confidence then a :: b :: l else b :: insertDesc a l

/-- Stable sort, descending by confidence. -/
def sortDesc : List SkillRecord → List SkillRecord
  | [] => []
  | a :: l => insertDesc a (sortDesc l)

/-- `extractSkillsFromText(text)` from `ai.js` (the `async` wrapper and the
unused `nlp` call are dropped). -/
def extractSkillsFromText (text : Str) : List SkillRecord :=
  sortDesc (uniqueSkills text)

/-! ## Spec-side definitions, written from the claims' wording, to be
compared with the source embedding (refinement claims C3–C6, C8). -/

/-- Weight of a required skill per the spec: 2 if mandatory, else 1. -/
def reqWeight (r : RequiredSkill) : ℚ := if r.mandatory then 2 else 1

/-- Spec wording: the required skill's name equals some user skill name
case-insensitively. -/
def matchesUser (userSkills : List UserSkill) (reqSkill : RequiredSkill) : Bool :=
  userSkills.any (fun u => lowerStr u.name == lowerStr reqSkill.name)

/-- C3's wording of the skills sub-score: 0 when either list is empty,
otherwise matched weight over total weight. -/
def skillsMatchSpec (userSkills : List UserSkill) (requiredSkills : List RequiredSkill) : ℚ :=
  if userSkills = [] ∨ requiredSkills = [] then 0
  else
    ((requiredSkills.filter (matchesUser userSkills)).map reqWeight).sum
      / ((requiredSkills.map reqWeight).sum)

/-- C4's wording of one entry's years: elapsed years start→end (missing end
meaning now), floored at 0. -/
def entryYearsSpec (now : ℚ) (exp : ExperienceEntry) : ℚ :=
  max 0 ((exp.endDate.getD now - exp.startDate) / (1000 * 60 * 60 * 24 * 365))

/-- C4's level table: entry 0–2, mid 2–5, senior 5–10, executive 10–100,
unknown levels 0–100. -/
def experienceRangesSpec (level : Str) : ℚ × ℚ :=
  if level = "entry".toList then (0, 2)
  else if level = "mid".toList then (2, 5)
  else if level = "senior".toList then (5, 10)
  else if level = "executive".toList then (10, 100)
  else (0, 100)

/-- C4's wording of the experience sub-score. -/
def experienceMatchSpec (now : ℚ) (user : UserProfile) (job : JobPosting) : ℚ :=
  let entries := user.experience.getD []
  if entries = [] then 1/2
  else
    let totalYears := (entries.map (entryYearsSpec now)).sum
    let mn := (experienceRangesSpec job.experienceLevel).1
    let mx := (experienceRangesSpec job.experienceLevel).2
    if mn ≤ totalYears ∧ totalYears ≤ mx then 1
    else if totalYears < mn then totalYears / mn
    else max (7/10) (1 - (totalYears - mx) / mx)

/-- C5's wording of the location sub-score: remote wins; no stated
preference is neutral 0.5; otherwise symmetric case-insensitive containment
(preference contains job location or job location contains preference) in
some preferred location gives 1.0, else 0.3.  The job location is only read
in the last case (`Option.map`). -/
def locationMatchSpec (user : UserProfile) (job : JobPosting) : Option ℚ :=
  if job.remote then some 1
  else if prefLocsOf user = [] then some (1/2)
  else
    job.location.map (fun loc0 =>
      if (prefLocsOf user).any (fun loc =>
          jsIncludes (lowerStr loc) (lowerStr loc0) || jsIncludes (lowerStr loc0) (lowerStr loc))
      then 1 else 3/10)

/-- C6's wording of the job-type sub-score: 0.8 with no stated preference,
1.0 on exact membership of the job's type, else 0.5. -/
def jobTypeMatchSpec (user : UserProfile) (job : JobPosting) : ℚ :=
  if prefTypesOf user = [] then 8/10
  else if job.type ∈ prefTypesOf user then 1 else 1/2

/-- C8's wording of the combined context: positions of every
(case-insensitive) occurrence of the skill. -/
def occPositionList (text skill : Str) : List Nat :=
  (List.range (text.length + 1)).filter (fun i => startsWithCI skill (text.drop i))

/-- C8's wording of `getSkillContext`: the lowercased concatenation of one
window of up to 50 characters on each side of every occurrence. -/
def specContextConcat (text skill : Str) : Str :=
  lowerStr (((occPositionList text skill).map (fun i =>
    (text.drop (i - 50)).take (i + skill.length + 50 - (i - 50)))).flatten)

/-! ## Helper lemmas -/

theorem beq_comm_str (a b : Str) : (a == b) = (b == a) := by
  by_cases h : a = b
  · simp [h]
  · simp [h, Ne.symm h]

theorem contains_map_lower (us : List UserSkill) (x : Str) :
    ((us.map fun s => lowerStr s.name).contains x) = us.any (fun u => lowerStr u.name == x) := by
  induction us with
  | nil => rfl
  | cons u l ih =>
    simp only [List.map_cons, List.contains_cons, List.any_cons, ih]
    rw [beq_comm_str]

/-! ### C6: job-type sub-score -/

/-- C6: `calculateJobTypeMatch` returns 0.8 with no declared preferred job
types, 1.0 when the job's type is a member of the preferred-types list
under exact equality, and 0.5 otherwise. -/
theorem calculateJobTypeMatch_spec (u : UserProfile) (j : JobPosting) :
    calculateJobTypeMatch u j = jobTypeMatchSpec u j := by
  unfold calculateJobTypeMatch jobTypeMatchSpec
  cases hpt : prefTypesOf u with
  | nil => simp
  | cons a l =>
    simp [List.elem_iff]

/-! ### C5 and C10: location sub-score -/

theorem any_loc_comm (l : List Str) (x : Str) :
    (l.any fun loc => jsIncludes (lowerStr x) (lowerStr loc) || jsIncludes (lowerStr loc) (lowerStr x))
      = (l.any fun loc => jsIncludes (lowerStr loc) (lowerStr x) || jsIncludes (lowerStr x) (lowerStr loc)) := by
  induction l with
  | nil => rfl
  | cons a l ih => simp only [List.any_cons, ih, Bool.or_comm]

/-- C5: `calculateLocationMatch` returns 1.0 whenever the job is remote,
regardless of every other field; otherwise 0.5 with no declared preferred
locations, 1.0 when some preferred location and the job's location contain
one another case-insensitively in either direction, and 0.3 otherwise. -/
theorem calculateLocationMatch_spec (u : UserProfile) (j : JobPosting) :
    calculateLocationMatch u j = locationMatchSpec u j := by
  unfold calculateLocationMatch locationMatchSpec
  cases hr : j.remote
  · cases hpt : prefLocsOf u with
    | nil => simp
    | cons a l =>
      cases hl : j.location with
      | none => simp
      | some loc0 => simp [any_loc_comm (a :: l) loc0]
  · rfl

/-- C10: with a non-remote job and no declared preferred locations (the
preferences field or its locations list missing or empty), the location
sub-score is 0.5 for every job — in particular also when the job record has
no `location` field, which is never read on this path. -/
theorem calculateLocationMatch_missing_location_safe (u : UserProfile) (j : JobPosting)
    (hr : j.remote = false) (hp : prefLocsOf u = []) :
    calculateLocationMatch u j = some (1/2) := by
  unfold calculateLocationMatch
  simp [hr, hp]

/-- Witness for C10: a user with no preferences against a non-remote job
whose record carries no location at all. -/
theorem calculateLocationMatch_missing_location_safe_witness :
    (JobPosting.mk none ("mid".toList) false none ("full-time".toList)).remote = false ∧
    prefLocsOf (UserProfile.mk none none none) = [] ∧
    calculateLocationMatch (UserProfile.mk none none none)
      (JobPosting.mk none ("mid".toList) false none ("full-time".toList)) = some (1/2) :=
  ⟨rfl, rfl,
    calculateLocationMatch_missing_location_safe
      (UserProfile.mk none none none)
      (JobPosting.mk none ("mid".toList) false none ("full-time".toList)) rfl rfl⟩

/-! ### C3: skills sub-score -/

theorem skillsFoldl_eq (names : List Str) (rs : List RequiredSkill) (mc tw : ℚ) :
    rs.foldl (skillsFold names) (mc, tw)
      = (mc + ((rs.filter fun r => names.contains (lowerStr r.name)).map reqWeight).sum,
         tw + (rs.map reqWeight).sum) := by
  induction rs generalizing mc tw with
  | nil => simp
  | cons r rs ih =>
    by_cases h : names.contains (lowerStr r.name)
    · simp only [List.foldl_cons, skillsFold, h, if_true, ih, List.filter_cons,
        List.map_cons, List.sum_cons, reqWeight]
      refine Prod.ext ?_ ?_ <;> (dsimp; try ring)
    · simp only [Bool.not_eq_true] at h
      simp only [List.foldl_cons, skillsFold, h, Bool.false_eq_true, if_false, ih,
        List.filter_cons, List.map_cons, List.sum_cons, reqWeight]
      refine Prod.ext ?_ ?_ <;> (dsimp; try ring)

theorem reqWeight_pos (r : RequiredSkill) : 0 < reqWeight r := by
  unfold reqWeight; split <;> norm_num

theorem sum_reqWeight_nonneg (rs : List RequiredSkill) : 0 ≤ (rs.map reqWeight).sum := by
  induction rs with
  | nil => simp
  | cons r rs ih =>
    simp only [List.map_cons, List.sum_cons]
    have := reqWeight_pos r
    linarith

theorem sum_reqWeight_pos (rs : List RequiredSkill) (h : rs ≠ []) :
    0 < (rs.map reqWeight).sum := by
  cases rs with
  | nil => exact absurd rfl h
  | cons r rs =>
    simp only [List.map_cons, List.sum_cons]
    have h1 := reqWeight_pos r
    have h2 := sum_reqWeight_nonneg rs
    linarith

theorem filtered_sum_bounds (p : RequiredSkill → Bool) (rs : List RequiredSkill) :
    0 ≤ ((rs.filter p).map reqWeight).sum ∧
    ((rs.filter p).map reqWeight).sum ≤ (rs.map reqWeight).sum := by
  induction rs with
  | nil => simp
  | cons r rs ih =>
    have hw := reqWeight_pos r
    simp only [List.filter_cons, List.map_cons, List.sum_cons]
    by_cases h : p r
    · simp only [h, if_true, List.map_cons, List.sum_cons]
      exact ⟨by linarith [ih.1], by linarith [ih.2]⟩
    · simp only [Bool.not_eq_true] at h
      simp only [h, Bool.false_eq_true, if_false]
      exact ⟨ih.1, by linarith [ih.2]⟩

/-- C3: `calculateSkillsMatch` returns 0 when either list is empty;
otherwise each required skill contributes weight 2 if mandatory else 1 to
the total weight, contributes it to the matched weight exactly when its
name equals some user skill name case-insensitively, and the result is
matched weight over total weight. -/
theorem calculateSkillsMatch_spec (us : List UserSkill) (rs : List RequiredSkill) :
    calculateSkillsMatch us rs = skillsMatchSpec us rs := by
  unfold calculateSkillsMatch skillsMatchSpec
  cases us with
  | nil => simp
  | cons u us' =>
    cases rs with
    | nil => simp
    | cons r rs' =>
      have hpos : 0 < (((r :: rs').map reqWeight).sum) :=
        sum_reqWeight_pos _ (by simp)
      have hpred : ∀ x ∈ (r :: rs'),
          (((u :: us').map fun s => lowerStr s.name).contains (lowerStr x.name))
            = matchesUser (u :: us') x :=
        fun x _ => contains_map_lower (u :: us') (lowerStr x.name)
      simp only [List.isEmpty_cons, Bool.or_self, Bool.false_eq_true, if_false,
        skillsFoldl_eq, zero_add]
      rw [if_pos hpos, List.filter_congr hpred]
      simp

/-! ### C4: experience sub-score -/

theorem entryYears_nonneg (now : ℚ) (e : ExperienceEntry) : 0 ≤ entryYears now e :=
  le_max_left 0 _

theorem totalYearsOf_eq (now : ℚ) (l : List ExperienceEntry) :
    totalYearsOf now l = (l.map (entryYears now)).sum := by
  have aux : ∀ (l : List ExperienceEntry) (a : ℚ),
      l.foldl (fun total exp => total + entryYears now exp) a
        = a + (l.map (entryYears now)).sum := by
    intro l
    induction l with
    | nil => intro a; simp
    | cons e l ih => intro a; simp only [List.foldl_cons, ih, List.map_cons, List.sum_cons]; ring
  simpa using aux l 0

theorem totalYearsOf_nonneg (now : ℚ) (l : List ExperienceEntry) :
    0 ≤ totalYearsOf now l := by
  rw [totalYearsOf_eq]
  exact List.sum_nonneg (by
    intro x hx
    obtain ⟨e, _, rfl⟩ := List.mem_map.mp hx
    exact entryYears_nonneg now e)

theorem experienceRanges_facts (level : Str) :
    0 ≤ (experienceRanges level).1 ∧ 0 < (experienceRanges level).2 ∧
    (experienceRanges level).1 ≤ (experienceRanges level).2 := by
  unfold experienceRanges
  split_ifs <;> norm_num

theorem entryYears_eq_spec (now : ℚ) (e : ExperienceEntry) :
    entryYears now e = entryYearsSpec now e := rfl

theorem experienceRanges_eq_spec (level : Str) :
    experienceRanges level = experienceRangesSpec level := rfl

/-- C4: the experience sub-score is a neutral 0.5 with no experience
entries; otherwise, with total years the per-entry-floored sum of elapsed
years (missing end date meaning now) and the level mapped through the
entry/mid/senior/executive table (unknown levels 0–100), it is 1.0 inside
the range inclusive, totalYears/minYears below it (no division by zero can
occur), and max(0.7, 1 − (totalYears − maxYears)/maxYears) above it, so
overqualification never scores below 0.7. -/
theorem calculateExperienceMatch_spec :
    (∀ (now : ℚ) (u : UserProfile) (j : JobPosting),
      calculateExperienceMatch now u j = experienceMatchSpec now u j) ∧
    (∀ (now : ℚ) (u : UserProfile) (j : JobPosting),
      u.experience.getD [] ≠ [] →
      (experienceRanges j.experienceLevel).2 < totalYearsOf now (u.experience.getD []) →
      7/10 ≤ calculateExperienceMatch now u j) := by
  constructor
  · intro now u j
    unfold calculateExperienceMatch experienceMatchSpec
    cases hexp : u.experience.getD [] with
    | nil => simp
    | cons e l =>
      have hmap : entryYears now = entryYearsSpec now := funext (entryYears_eq_spec now)
      have hty : totalYearsOf now (e :: l) = ((e :: l).map (entryYearsSpec now)).sum := by
        rw [totalYearsOf_eq, hmap]
      have hr := experienceRanges_eq_spec j.experienceLevel
      have h0 : (0:ℚ) ≤ totalYearsOf now (e :: l) := totalYearsOf_nonneg now (e :: l)
      have hfacts := experienceRanges_facts j.experienceLevel
      simp only [List.isEmpty_cons, Bool.false_eq_true, if_false, ← hty, ← hr,
        List.cons_ne_nil, if_false]
      split_ifs with hin hlo
      · rfl
      · exact max_eq_right (div_nonneg h0 hfacts.1)
      · rfl
  · intro now u j hne hover
    unfold calculateExperienceMatch
    cases hexp : u.experience.getD [] with
    | nil => exact absurd hexp hne
    | cons e l =>
      rw [hexp] at hover
      have hfacts := experienceRanges_facts j.experienceLevel
      simp only [List.isEmpty_cons, Bool.false_eq_true, if_false]
      have hnotin : ¬((experienceRanges j.experienceLevel).1 ≤ totalYearsOf now (e :: l) ∧
          totalYearsOf now (e :: l) ≤ (experienceRanges j.experienceLevel).2) := by
        intro hcon
        exact absurd hover (not_lt.mpr hcon.2)
      have hnotlo : ¬(totalYearsOf now (e :: l) < (experienceRanges j.experienceLevel).1) := by
        intro hcon
        exact absurd (lt_trans hover hcon) (not_lt.mpr hfacts.2.2)
      rw [if_neg hnotin, if_neg hnotlo]
      exact le_max_left _ _

/-- Witness for C4: a 20-year veteran (one entry, start 20 years before
`now = 0`, no end date) against an entry-level job scores exactly 0.7. -/
theorem calculateExperienceMatch_spec_witness :
    ((UserProfile.mk none (some [ExperienceEntry.mk (-(msPerYear * 20)) none]) none).experience.getD [] ≠ []) ∧
    ((experienceRanges ("entry".toList)).2
      < totalYearsOf 0 ((UserProfile.mk none (some [ExperienceEntry.mk (-(msPerYear * 20)) none]) none).experience.getD [])) ∧
    calculateExperienceMatch 0 (UserProfile.mk none (some [ExperienceEntry.mk (-(msPerYear * 20)) none]) none)
        (JobPosting.mk none ("entry".toList) false none ("full-time".toList))
      = experienceMatchSpec 0 (UserProfile.mk none (some [ExperienceEntry.mk (-(msPerYear * 20)) none]) none)
        (JobPosting.mk none ("entry".toList) false none ("full-time".toList)) ∧
    7/10 ≤ calculateExperienceMatch 0 (UserProfile.mk none (some [ExperienceEntry.mk (-(msPerYear * 20)) none]) none)
        (JobPosting.mk none ("entry".toList) false none ("full-time".toList)) :=
  ⟨by decide,
    by
      show (2:ℚ) < totalYearsOf 0 [ExperienceEntry.mk (-(msPerYear * 20)) none]
      norm_num [totalYearsOf, entryYears, msPerYear],
    calculateExperienceMatch_spec.1 0 _ _,
    calculateExperienceMatch_spec.2 0 _ _ (by decide)
      (by
        show (2:ℚ) < totalYearsOf 0 [ExperienceEntry.mk (-(msPerYear * 20)) none]
        norm_num [totalYearsOf, entryYears, msPerYear])⟩

/-! ### C2: the weighted combiner -/

theorem calculateSkillsMatch_bounds (us : List UserSkill) (rs : List RequiredSkill) :
    0 ≤ calculateSkillsMatch us rs ∧ calculateSkillsMatch us rs ≤ 1 := by
  by_cases h : (us.isEmpty || rs.isEmpty) = true
  · unfold calculateSkillsMatch; rw [if_pos h]; norm_num
  · have hrs : rs ≠ [] := by
      intro hcon; subst hcon; simp at h
    have hpos := sum_reqWeight_pos rs hrs
    have hb := filtered_sum_bounds
      (fun r => ((us.map fun s => lowerStr s.name).contains (lowerStr r.name))) rs
    have hcalc : calculateSkillsMatch us rs
        = ((rs.filter fun r =>
              ((us.map fun s => lowerStr s.name).contains (lowerStr r.name))).map reqWeight).sum
          / (rs.map reqWeight).sum := by
      unfold calculateSkillsMatch
      rw [if_neg h]
      dsimp only
      rw [skillsFoldl_eq]
      dsimp only
      rw [zero_add, zero_add, if_pos hpos]
    rw [hcalc]
    exact ⟨div_nonneg hb.1 (le_of_lt hpos), (div_le_one hpos).mpr hb.2⟩

theorem calculateExperienceMatch_bounds (now : ℚ) (u : UserProfile) (j : JobPosting) :
    0 ≤ calculateExperienceMatch now u j ∧ calculateExperienceMatch now u j ≤ 1 := by
  unfold calculateExperienceMatch
  cases hexp : u.experience.getD [] with
  | nil => norm_num
  | cons e l =>
    simp only [List.isEmpty_cons, Bool.false_eq_true, if_false]
    have ht := totalYearsOf_nonneg now (e :: l)
    have hf := experienceRanges_facts j.experienceLevel
    split_ifs with h1 h2
    · norm_num
    · have hmn : 0 < (experienceRanges j.experienceLevel).1 := lt_of_le_of_lt ht h2
      refine ⟨le_max_left 0 _, max_le (by norm_num) ?_⟩
      exact (div_le_one hmn).mpr (le_of_lt h2)
    · have hmn_le : (experienceRanges j.experienceLevel).1 ≤ totalYearsOf now (e :: l) :=
        not_lt.mp h2
      have hgt : (experienceRanges j.experienceLevel).2 < totalYearsOf now (e :: l) :=
        not_le.mp (fun hc => h1 ⟨hmn_le, hc⟩)
      have hdiv : 0 ≤ (totalYearsOf now (e :: l) - (experienceRanges j.experienceLevel).2)
          / (experienceRanges j.experienceLevel).2 :=
        div_nonneg (by linarith) (le_of_lt hf.2.1)
      refine ⟨le_trans (by norm_num) (le_max_left (7/10) _), max_le (by norm_num) ?_⟩
      linarith

theorem calculateLocationMatch_bounds (u : UserProfile) (j : JobPosting) (v : ℚ)
    (h : calculateLocationMatch u j = some v) : 0 ≤ v ∧ v ≤ 1 := by
  unfold calculateLocationMatch at h
  by_cases hr : j.remote = true
  · rw [if_pos hr] at h
    simp only [Option.some.injEq] at h
    subst h; norm_num
  · rw [if_neg hr] at h
    dsimp only at h
    by_cases hp : (prefLocsOf u).isEmpty = true
    · rw [if_pos hp] at h
      simp only [Option.some.injEq] at h
      subst h; norm_num
    · rw [if_neg hp] at h
      cases hl : j.location with
      | none => rw [hl] at h; cases h
      | some loc0 =>
        rw [hl] at h
        simp only [Option.some.injEq] at h
        subst h
        split_ifs <;> norm_num

theorem calculateJobTypeMatch_bounds (u : UserProfile) (j : JobPosting) :
    0 ≤ calculateJobTypeMatch u j ∧ calculateJobTypeMatch u j ≤ 1 := by
  unfold calculateJobTypeMatch
  dsimp only
  split_ifs <;> norm_num

/-- C2: under the rational-number model the weight sum is exactly 1, so the
guarded quotient equals the plain weighted sum
0.4·skills + 0.3·experience + 0.2·location + 0.1·jobType, the result lies
in [0,1], and the final guard returns 0 on a zero weight sum. -/
theorem calculateMatchScore_weighted (now : ℚ) (u : UserProfile) (j : JobPosting) (s v : ℚ)
    (hloc : calculateLocationMatch u j = some v)
    (h : calculateMatchScore now u j = some s) :
    s = calculateSkillsMatch (u.skills.getD []) (j.requiredSkills.getD []) * (4/10)
        + calculateExperienceMatch now u j * (3/10) + v * (2/10)
        + calculateJobTypeMatch u j * (1/10)
    ∧ ((4:ℚ)/10 + 3/10 + 2/10 + 1/10 = 1)
    ∧ 0 ≤ s ∧ s ≤ 1
    ∧ (∀ t : ℚ, matchCombine t 0 = 0) := by
  unfold calculateMatchScore at h
  rw [hloc] at h
  simp only [Option.map_some', Option.some.injEq] at h
  have hw : ((4:ℚ)/10 + 3/10 + 2/10 + 1/10) = 1 := by norm_num
  rw [matchCombine, hw, if_pos (by norm_num : (0:ℚ) < 1), div_one] at h
  have hsk := calculateSkillsMatch_bounds (u.skills.getD []) (j.requiredSkills.getD [])
  have hex := calculateExperienceMatch_bounds now u j
  have hlo := calculateLocationMatch_bounds u j v hloc
  have hty := calculateJobTypeMatch_bounds u j
  refine ⟨h.symm, hw, ?_, ?_, fun t => by unfold matchCombine; norm_num⟩
  · rw [← h]
    have := hsk.1; have := hex.1; have := hlo.1; have := hty.1
    nlinarith [hsk.1, hex.1, hlo.1, hty.1]
  · rw [← h]
    nlinarith [hsk.1, hsk.2, hex.1, hex.2, hlo.1, hlo.2, hty.1, hty.2]

/-- Witness for C2: the empty profile against a remote job scores
0·0.4 + 0.5·0.3 + 1·0.2 + 0.8·0.1 = 0.43. -/
theorem calculateMatchScore_weighted_witness :
    calculateLocationMatch (UserProfile.mk none none none)
      (JobPosting.mk none ("mid".toList) true none ("full-time".toList)) = some 1 ∧
    calculateMatchScore 0 (UserProfile.mk none none none)
      (JobPosting.mk none ("mid".toList) true none ("full-time".toList)) = some (43/100) ∧
    0 ≤ (43/100 : ℚ) ∧ (43/100 : ℚ) ≤ 1 := by
  have hl : calculateLocationMatch (UserProfile.mk none none none)
      (JobPosting.mk none ("mid".toList) true none ("full-time".toList)) = some 1 := rfl
  have hm : calculateMatchScore 0 (UserProfile.mk none none none)
      (JobPosting.mk none ("mid".toList) true none ("full-time".toList)) = some (43/100) := by
    unfold calculateMatchScore
    rw [hl]
    simp only [Option.map_some', Option.some.injEq]
    norm_num [matchCombine, calculateSkillsMatch, calculateExperienceMatch,
      calculateJobTypeMatch, prefTypesOf]
  exact ⟨hl, hm,
    (calculateMatchScore_weighted 0 _ _ _ _ hl hm).2.2.1,
    (calculateMatchScore_weighted 0 _ _ _ _ hl hm).2.2.2.1⟩

/-! ### C1: dedup, descending order, stability -/

theorem insertDesc_perm (a : SkillRecord) (l : List SkillRecord) :
    List.Perm (insertDesc a l) (a :: l) := by
  induction l with
  | nil => rfl
  | cons b l ih =>
    unfold insertDesc
    split_ifs
    · rfl
    · exact (ih.cons b).trans (List.Perm.swap a b l)

theorem sortDesc_perm (l : List SkillRecord) : List.Perm (sortDesc l) l := by
  induction l with
  | nil => rfl
  | cons a l ih => exact (insertDesc_perm a (sortDesc l)).trans (ih.cons a)

theorem pairwise_insertDesc (a : SkillRecord) (l : List SkillRecord)
    (h : l.Pairwise fun x y => y.confidence ≤ x.confidence) :
    (insertDesc a l).Pairwise fun x y => y.confidence ≤ x.confidence := by
  induction l with
  | nil => simp [insertDesc]
  | cons b l ih =>
    rw [List.pairwise_cons] at h
    unfold insertDesc
    split_ifs with hab
    · refine List.Pairwise.cons ?_ (List.Pairwise.cons h.1 h.2)
      intro z hz
      rcases List.mem_cons.mp hz with rfl | hz'
      · exact hab
      · exact le_trans (h.1 z hz') hab
    · push_neg at hab
      refine List.Pairwise.cons ?_ (ih h.2)
      intro z hz
      rcases List.mem_cons.mp ((insertDesc_perm a l).mem_iff.mp hz) with rfl | hz'
      · exact le_of_lt hab
      · exact h.1 z hz'

theorem pairwise_sortDesc (l : List SkillRecord) :
    (sortDesc l).Pairwise fun x y => y.confidence ≤ x.confidence := by
  induction l with
  | nil => exact List.Pairwise.nil
  | cons a l ih => exact pairwise_insertDesc a (sortDesc l) ih

theorem filter_insertDesc (a : SkillRecord) (l : List SkillRecord) (q : ℚ) :
    (insertDesc a l).filter (fun r => decide (r.confidence = q))
      = (a :: l).filter (fun r => decide (r.confidence = q)) := by
  induction l with
  | nil => rfl
  | cons b l ih =>
    unfold insertDesc
    split_ifs with hab
    · rfl
    · push_neg at hab
      simp only [List.filter_cons]
      by_cases hbq : b.confidence = q
      · have haq : ¬(a.confidence = q) := by
          intro hcon
          rw [hcon, ← hbq] at hab
          exact lt_irrefl _ hab
        simp only [List.filter_cons] at ih
        simp [hbq, haq, ih, List.filter_cons]
      · by_cases haq : a.confidence = q
        · simp only [List.filter_cons] at ih
          simp [hbq, haq, ih, List.filter_cons]
        · simp only [List.filter_cons] at ih
          simp [hbq, haq, ih, List.filter_cons]

theorem filter_sortDesc (l : List SkillRecord) (q : ℚ) :
    (sortDesc l).filter (fun r => decide (r.confidence = q))
      = l.filter (fun r => decide (r.confidence = q)) := by
  induction l with
  | nil => rfl
  | cons a l ih =>
    calc (sortDesc (a :: l)).filter (fun r => decide (r.confidence = q))
        = (a :: sortDesc l).filter (fun r => decide (r.confidence = q)) :=
          filter_insertDesc a (sortDesc l) q
      _ = (a :: l).filter (fun r => decide (r.confidence = q)) := by
          simp only [List.filter_cons, ih]

theorem keepFirstAux_nodup (l : List SkillRecord) :
    ∀ seen : List Str,
      (((keepFirstAux seen l).map (fun r => r.name)).Nodup ∧
       ∀ r ∈ keepFirstAux seen l, r.name ∉ seen) := by
  induction l with
  | nil => intro seen; exact ⟨List.nodup_nil, by intro r hr; cases hr⟩
  | cons x xs ih =>
    intro seen
    unfold keepFirstAux
    split_ifs with hx
    · exact ⟨(ih seen).1, (ih seen).2⟩
    · refine ⟨?_, ?_⟩
      · rw [List.map_cons, List.nodup_cons]
        refine ⟨?_, (ih (x.name :: seen)).1⟩
        intro hcon
        obtain ⟨r, hr, hname⟩ := List.mem_map.mp hcon
        exact ((ih (x.name :: seen)).2 r hr) (hname ▸ List.mem_cons_self x.name seen)
      · intro r hr
        rcases List.mem_cons.mp hr with rfl | hr'
        · exact hx
        · intro hcon
          exact ((ih (x.name :: seen)).2 r hr') (List.mem_cons_of_mem _ hcon)

/-- C1: for every input text the extraction result has pairwise-distinct
skill names, is sorted descending by confidence, and is a stable sort of
the deduplicated pass order: for each confidence value, the records
carrying it appear exactly as in encounter order (dictionary pass before
regex pass, each in table order). -/
theorem extractSkillsFromText_nodup_sorted_stable (text : Str) :
    ((extractSkillsFromText text).map (fun r => r.name)).Nodup ∧
    (extractSkillsFromText text).Pairwise (fun a b => b.confidence ≤ a.confidence) ∧
    ∀ q : ℚ, (extractSkillsFromText text).filter (fun r => decide (r.confidence = q))
      = (uniqueSkills text).filter (fun r => decide (r.confidence = q)) := by
  refine ⟨?_, ?_, ?_⟩
  · have hperm : List.Perm ((uniqueSkills text).map (fun r => r.name))
        ((sortDesc (uniqueSkills text)).map (fun r => r.name)) :=
      ((sortDesc_perm (uniqueSkills text)).symm).map (fun r => r.name)
    exact hperm.nodup (keepFirstAux_nodup (extractedSkills text) []).1
  · exact pairwise_sortDesc (uniqueSkills text)
  · intro q
    exact filter_sortDesc (uniqueSkills text) q

/-! ### C9: the dictionary pass wins ties over the regex pass -/

theorem dictPass_conf (t : Str) : ∀ r ∈ dictPass t, r.confidence = calculateConfidence t r.name := by
  intro r hr
  unfold dictPass at hr
  obtain ⟨s, _, rfl⟩ := List.mem_map.mp hr
  rfl

theorem dictPass_mem (t n : Str) (h1 : n ∈ TECH_SKILLS) (h2 : jsIncludes (lowerStr t) n = true) :
    (⟨n, "Intermediate".toList, true, calculateConfidence t n⟩ : SkillRecord) ∈ dictPass t := by
  unfold dictPass
  exact List.mem_map.mpr ⟨n, List.mem_filter.mpr ⟨h1, h2⟩, rfl⟩

theorem pushMatch_keep (n : Str) (c : ℚ) (acc : List SkillRecord) (m : Str)
    (hex : ∃ r ∈ acc, r.name = n) (hall : ∀ r ∈ acc, r.name = n → r.confidence = c) :
    (∃ r ∈ pushMatch acc m, r.name = n) ∧
    (∀ r ∈ pushMatch acc m, r.name = n → r.confidence = c) := by
  unfold pushMatch
  dsimp only
  split_ifs with hany
  · exact ⟨hex, hall⟩
  · constructor
    · obtain ⟨r, hr, hrn⟩ := hex
      exact ⟨r, List.mem_append_left _ hr, hrn⟩
    · intro r hr hrn
      rcases List.mem_append.mp hr with hr' | hr'
      · exact hall r hr' hrn
      · exfalso
        simp only [List.mem_singleton] at hr'
        subst hr'
        have hcm : canonName m = n := hrn
        obtain ⟨r0, hr0, hr0n⟩ := hex
        exact hany (List.any_eq_true.mpr ⟨r0, hr0, by simp [hr0n, hcm]⟩)

theorem foldl_pushMatch_keep (n : Str) (c : ℚ) :
    ∀ (ms : List Str) (acc : List SkillRecord),
      (∃ r ∈ acc, r.name = n) → (∀ r ∈ acc, r.name = n → r.confidence = c) →
      (∃ r ∈ List.foldl pushMatch acc ms, r.name = n) ∧
      (∀ r ∈ List.foldl pushMatch acc ms, r.name = n → r.confidence = c) := by
  intro ms
  induction ms with
  | nil => intro acc hex hall; exact ⟨hex, hall⟩
  | cons m ms ih =>
    intro acc hex hall
    rw [List.foldl_cons]
    have h := pushMatch_keep n c acc m hex hall
    exact ih (pushMatch acc m) h.1 h.2

theorem keepFirstAux_sub (l : List SkillRecord) :
    ∀ (seen : List Str) (r : SkillRecord), r ∈ keepFirstAux seen l → r ∈ l := by
  induction l with
  | nil => intro seen r hr; cases hr
  | cons x xs ih =>
    intro seen r hr
    unfold keepFirstAux at hr
    split_ifs at hr with hx
    · exact List.mem_cons_of_mem _ (ih seen r hr)
    · rcases List.mem_cons.mp hr with rfl | hr'
      · exact List.mem_cons_self _ _
      · exact List.mem_cons_of_mem _ (ih (x.name :: seen) r hr')

theorem keepFirstAux_exists (l : List SkillRecord) :
    ∀ (seen : List Str) (n : Str), (∃ r ∈ l, r.name = n) → n ∉ seen →
      ∃ r ∈ keepFirstAux seen l, r.name = n := by
  induction l with
  | nil =>
    intro seen n hex _
    obtain ⟨r, hr, _⟩ := hex
    cases hr
  | cons x xs ih =>
    intro seen n hex hn
    unfold keepFirstAux
    split_ifs with hx
    · obtain ⟨r, hr, hrn⟩ := hex
      rcases List.mem_cons.mp hr with rfl | hr'
      · exact absurd (hrn ▸ hx) hn
      · exact ih seen n ⟨r, hr', hrn⟩ hn
    · by_cases hxn : x.name = n
      · exact ⟨x, List.mem_cons_self _ _, hxn⟩
      · obtain ⟨r, hr, hrn⟩ := hex
        rcases List.mem_cons.mp hr with rfl | hr'
        · exact absurd hrn hxn
        · obtain ⟨r', hr'', hrn'⟩ := ih (x.name :: seen) n ⟨r, hr', hrn⟩ (by
            intro hcon
            rcases List.mem_cons.mp hcon with hcon' | hcon'
            · exact hxn hcon'.symm
            · exact hn hcon')
          exact ⟨r', List.mem_cons_of_mem _ hr'', hrn'⟩

/-- C9: when a dictionary entry is contained in the text, the returned
record carrying that name exists and keeps the dictionary-pass confidence
computed by `calculateConfidence`: a regex family producing the same
canonical name can never overwrite it with the constant 0.8, because the
regex pass checks for an existing record before inserting and the dedup
keeps the first occurrence. -/
theorem extractSkills_dict_wins (text n : Str) (h1 : n ∈ TECH_SKILLS)
    (h2 : jsIncludes (lowerStr text) n = true) :
    (∃ r ∈ extractSkillsFromText text, r.name = n) ∧
    (∀ r ∈ extractSkillsFromText text, r.name = n →
      r.confidence = calculateConfidence text n) := by
  have hd := dictPass_mem text n h1 h2
  have hex0 : ∃ r ∈ dictPass text, r.name = n := ⟨_, hd, rfl⟩
  have hall0 : ∀ r ∈ dictPass text, r.name = n → r.confidence = calculateConfidence text n := by
    intro r hr hrn
    rw [dictPass_conf text r hr, hrn]
  have hext := foldl_pushMatch_keep n (calculateConfidence text n)
    (patternMatchList text) (dictPass text) hex0 hall0
  have hexu : ∃ r ∈ uniqueSkills text, r.name = n :=
    keepFirstAux_exists (extractedSkills text) [] n hext.1 (List.not_mem_nil n)
  have hallu : ∀ r ∈ uniqueSkills text, r.name = n →
      r.confidence = calculateConfidence text n :=
    fun r hr => hext.2 r (keepFirstAux_sub (extractedSkills text) [] r hr)
  constructor
  · obtain ⟨r, hr, hrn⟩ := hexu
    exact ⟨r, (sortDesc_perm (uniqueSkills text)).mem_iff.mpr hr, hrn⟩
  · intro r hr hrn
    exact hallu r ((sortDesc_perm (uniqueSkills text)).mem_iff.mp hr) hrn

/-- Witness for C9: the text "react" matches the dictionary entry "react";
its record keeps confidence 0.3 from `calculateConfidence` (one occurrence,
no context boosts) rather than the regex constant 0.8. -/
theorem extractSkills_dict_wins_witness :
    ("react".toList ∈ TECH_SKILLS) ∧
    (jsIncludes (lowerStr ("react".toList)) ("react".toList) = true) ∧
    ((∃ r ∈ extractSkillsFromText ("react".toList), r.name = "react".toList) ∧
     (∀ r ∈ extractSkillsFromText ("react".toList), r.name = "react".toList →
       r.confidence = calculateConfidence ("react".toList) ("react".toList))) :=
  ⟨by decide, by decide, extractSkills_dict_wins ("react".toList) ("react".toList)
    (by decide) (by decide)⟩

/-! ### C7: confidence is monotone in the occurrence count and ≤ 1 -/

/-- C7: the base confidence min(occurrences·0.3, 0.9) is monotone
non-decreasing in the occurrence count; the full confidence is monotone
non-decreasing in the occurrence count whenever the context boosts agree;
and the result never exceeds 1.0. -/
theorem calculateConfidence_monotone_bounded :
    (∀ t1 t2 s : Str, countOcc t1 s ≤ countOcc t2 s →
      min ((countOcc t1 s : ℚ) * (3/10)) (9/10)
        ≤ min ((countOcc t2 s : ℚ) * (3/10)) (9/10)) ∧
    (∀ t1 t2 s : Str, countOcc t1 s ≤ countOcc t2 s →
      hasExpBoost (getSkillContext t1 s) = hasExpBoost (getSkillContext t2 s) →
      hasAdvBoost (getSkillContext t1 s) = hasAdvBoost (getSkillContext t2 s) →
      calculateConfidence t1 s ≤ calculateConfidence t2 s) ∧
    (∀ t s : Str, calculateConfidence t s ≤ 1) := by
  have hbase : ∀ (a b : Nat), a ≤ b →
      min ((a:ℚ) * (3/10)) (9/10) ≤ min ((b:ℚ) * (3/10)) (9/10) := by
    intro a b h
    have hab : (a:ℚ) ≤ b := by exact_mod_cast h
    exact min_le_min (by nlinarith) le_rfl
  refine ⟨fun t1 t2 s h => hbase _ _ h, ?_, ?_⟩
  · intro t1 t2 s h he ha
    unfold calculateConfidence
    dsimp only
    rw [he, ha]
    have hb := hbase _ _ h
    refine min_le_min ?_ le_rfl
    linarith
  · intro t s
    unfold calculateConfidence
    dsimp only
    exact min_le_right _ 1

/-- Witness for C7: "go" versus "go go" for the skill "go" (1 ≤ 2
occurrences, equal boosts, confidence 0.3 ≤ 0.6 ≤ 1). -/
theorem calculateConfidence_monotone_bounded_witness :
    countOcc ("go".toList) ("go".toList) ≤ countOcc ("go go".toList) ("go".toList) ∧
    hasExpBoost (getSkillContext ("go".toList) ("go".toList))
      = hasExpBoost (getSkillContext ("go go".toList) ("go".toList)) ∧
    hasAdvBoost (getSkillContext ("go".toList) ("go".toList))
      = hasAdvBoost (getSkillContext ("go go".toList) ("go".toList)) ∧
    calculateConfidence ("go".toList) ("go".toList)
      ≤ calculateConfidence ("go go".toList) ("go".toList) ∧
    calculateConfidence ("go".toList) ("go".toList) ≤ 1 :=
  ⟨by decide, by decide, by decide,
    calculateConfidence_monotone_bounded.2.1 _ _ _ (by decide) (by decide) (by decide),
    calculateConfidence_monotone_bounded.2.2 _ _⟩

/-! ### C8: the context window and the confidence boosts -/

theorem lowerStr_drop (l : Str) (n : Nat) : lowerStr (l.drop n) = (lowerStr l).drop n := by
  simp [lowerStr, List.map_drop]

theorem lowerStr_take (l : Str) (n : Nat) : lowerStr (l.take n) = (lowerStr l).take n := by
  simp [lowerStr, List.map_take]

theorem lowerStr_length (l : Str) : (lowerStr l).length = l.length := by
  simp [lowerStr]

/-- C8 counterexample: on the text "aws##aws" with skill "aws" the greedy
global regex produces one shared window "aws##aws", while one window per
occurrence concatenated would give "aws##awsaws##aws". -/
theorem getSkillContext_counterexample :
    getSkillContext ("aws##aws".toList) ("aws".toList)
      ≠ specContextConcat ("aws##aws".toList) ("aws".toList) := by decide

theorem jsIncludes_iff_contained (hay needle : Str) :
    jsIncludes hay needle = true ↔ needle <:+: hay := by
  induction hay with
  | nil => simp [jsIncludes, List.isEmpty_iff, List.infix_nil]
  | cons c t ih =>
    simp [jsIncludes, Bool.or_eq_true, ih, List.isPrefixOf_iff_prefix, List.infix_cons_iff]

theorem infix_iff_exists_drop (p l : Str) :
    p <:+: l ↔ ∃ i, p <+: l.drop i := by
  constructor
  · rintro ⟨x, y, hxy⟩
    refine ⟨x.length, ?_⟩
    rw [← hxy, List.append_assoc, List.drop_left]
    exact List.prefix_append p y
  · rintro ⟨i, r, hr⟩
    exact ⟨l.take i, r, by rw [List.append_assoc, hr, List.take_append_drop]⟩

theorem prefix_drop_infix_take (p l : List Char) (k len : Nat)
    (h : p <+: l.drop k) (hlen : k + p.length ≤ len) :
    p <:+: l.take len := by
  obtain ⟨r, hr⟩ := h
  have hk : k ≤ len := le_trans (Nat.le_add_right _ _) hlen
  have h1 : l.take len = l.take k ++ (l.drop k).take (len - k) := by
    conv_lhs => rw [show len = k + (len - k) from (Nat.add_sub_cancel' hk).symm]
    exact List.take_add l k (len - k)
  have h2 : (l.drop k).take (len - k) = p ++ r.take (len - k - p.length) := by
    rw [← hr, List.take_append_eq_append_take,
      List.take_of_length_le (by omega : p.length ≤ len - k)]
  rw [h1, h2]
  exact ⟨l.take k, r.take (len - k - p.length), by rw [List.append_assoc]⟩

theorem findGreedyK_sound (s hay : Str) :
    ∀ (kmax k : Nat), findGreedyK s hay kmax = some k →
      k ≤ kmax ∧ startsWithCI s (hay.drop k) = true := by
  intro kmax
  induction kmax with
  | zero =>
    intro k h
    unfold findGreedyK at h
    split_ifs at h with hc
    · simp only [Option.some.injEq] at h
      subst h
      rw [List.drop_zero]
      exact ⟨le_rfl, hc⟩
  | succ kmax ih =>
    intro k h
    unfold findGreedyK at h
    split_ifs at h with hc
    · simp only [Option.some.injEq] at h
      subst h
      simp only [Bool.and_eq_true] at hc
      exact ⟨le_rfl, hc.2⟩
    · obtain ⟨h1, h2⟩ := ih k h
      exact ⟨Nat.le_succ_of_le h1, h2⟩

theorem findGreedyK_complete (s hay : Str) (h : startsWithCI s hay = true) :
    ∀ kmax, ∃ k, findGreedyK s hay kmax = some k := by
  intro kmax
  induction kmax with
  | zero => exact ⟨0, by unfold findGreedyK; rw [if_pos h]⟩
  | succ kmax ih =>
    unfold findGreedyK
    split_ifs with hc
    · exact ⟨kmax + 1, rfl⟩
    · exact ih

theorem matchAt_some_of_head (s hay : Str) (h : startsWithCI s hay = true) :
    ∃ len, matchAt s hay = some len := by
  unfold matchAt
  obtain ⟨k, hk⟩ := findGreedyK_complete s hay h 50
  rw [hk]
  exact ⟨_, rfl⟩

theorem matchAt_found (s hay : Str) (len : Nat) (h : matchAt s hay = some len) :
    (lowerStr s) <:+: (lowerStr (hay.take len)) ∧ len ≤ s.length + 100 := by
  unfold matchAt at h
  rcases hk : findGreedyK s hay 50 with _ | k
  · rw [hk] at h; cases h
  · rw [hk] at h
    simp only [Option.some.injEq] at h
    obtain ⟨hk50, hsw⟩ := findGreedyK_sound s hay 50 k hk
    subst h
    constructor
    · unfold startsWithCI at hsw
      have hpre : lowerStr s <+: lowerStr (hay.drop k) := List.isPrefixOf_iff_prefix.mp hsw
      rw [lowerStr_drop] at hpre
      have hlow : (lowerStr s).length = s.length := lowerStr_length s
      rw [lowerStr_take]
      exact prefix_drop_infix_take _ _ k _ hpre (by omega)
    · have hmin : min 50 ((hay.drop (k + s.length)).takeWhile isDotChar).length ≤ 50 :=
        Nat.min_le_left _ _
      omega

theorem contextScan_covers (s : Str) (hs : s ≠ []) :
    ∀ (fuel : Nat) (hay : Str), hay.length < fuel →
      (∃ i, startsWithCI s (hay.drop i) = true) →
      ∃ m ∈ contextScan s fuel hay, (lowerStr s) <:+: (lowerStr m) := by
  intro fuel
  induction fuel with
  | zero => intro hay hlen _; omega
  | succ fuel ih =>
    intro hay hlen hex
    unfold contextScan
    cases hhay : hay with
    | nil =>
      exfalso
      obtain ⟨i, hi⟩ := hex
      rw [hhay, List.drop_nil] at hi
      unfold startsWithCI at hi
      rcases hls : lowerStr s with _ | ⟨a, l⟩
      · exact hs (by simpa [lowerStr] using hls)
      · rw [hls] at hi
        simp [List.isPrefixOf] at hi
    | cons c t =>
      cases hm : matchAt s (c :: t) with
      | none =>
        obtain ⟨i, hi⟩ := hex
        rw [hhay] at hi
        rcases i with _ | i
        · rw [List.drop_zero] at hi
          obtain ⟨len, hlen'⟩ := matchAt_some_of_head s (c :: t) hi
          rw [hlen'] at hm
          cases hm
        · have hdrop : (c :: t).drop (i+1) = t.drop i := rfl
          rw [hdrop] at hi
          rw [hhay] at hlen
          obtain ⟨m, hmem, hinf⟩ := ih t (by simpa using Nat.lt_of_succ_lt_succ hlen) ⟨i, hi⟩
          exact ⟨m, hmem, hinf⟩
      | some len =>
        exact ⟨(c :: t).take len, List.mem_cons_self _ _, (matchAt_found s (c :: t) len hm).1⟩

theorem contextScan_len_bound (s : Str) :
    ∀ (fuel : Nat) (hay : Str), ∀ m ∈ contextScan s fuel hay, m.length ≤ s.length + 100 := by
  intro fuel
  induction fuel with
  | zero => intro hay m hm; cases hm
  | succ fuel ih =>
    intro hay m hm
    unfold contextScan at hm
    cases hhay : hay with
    | nil =>
      rw [hhay] at hm
      cases hmt : matchAt s ([] : Str) with
      | none => rw [hmt] at hm; cases hm
      | some len =>
        rw [hmt] at hm
        rcases List.mem_singleton.mp hm with rfl
        calc (([] : Str).take len).length ≤ len := List.length_take_le len _
          _ ≤ s.length + 100 := (matchAt_found s [] len hmt).2
    | cons c t =>
      rw [hhay] at hm
      cases hmt : matchAt s (c :: t) with
      | none => rw [hmt] at hm; exact ih t m hm
      | some len =>
        rw [hmt] at hm
        rcases List.mem_cons.mp hm with rfl | hm'
        · calc ((c :: t).take len).length ≤ len := List.length_take_le len _
            _ ≤ s.length + 100 := (matchAt_found s (c :: t) len hmt).2
        · exact ih _ m hm'

theorem joinSpace_contained (ms : List Str) (m : Str) (h : m ∈ ms) :
    m <:+: joinSpace ms := by
  induction ms with
  | nil => cases h
  | cons x ms ih =>
    rcases ms with _ | ⟨y, ms'⟩
    · rcases List.mem_singleton.mp h with rfl
      exact List.infix_refl m
    · rcases List.mem_cons.mp h with rfl | h'
      · exact ⟨[], ' ' :: joinSpace (y :: ms'), rfl⟩
      · obtain ⟨a, b, hab⟩ := ih h'
        refine ⟨x ++ ' ' :: a, b, ?_⟩
        show (x ++ ' ' :: a) ++ m ++ b = joinSpace (x :: y :: ms')
        have : joinSpace (x :: y :: ms') = x ++ ' ' :: joinSpace (y :: ms') := rfl
        rw [this, ← hab]
        simp

theorem lowerStr_contained {a b : Str} (h : a <:+: b) :
    (lowerStr a) <:+: (lowerStr b) := by
  obtain ⟨x, y, hxy⟩ := h
  exact ⟨lowerStr x, lowerStr y, by rw [← hxy]; simp [lowerStr]⟩

/-- C8 (amended): `getSkillContext` returns the lowercased space-joined
list of the greedy, non-overlapping context matches — each match holds an
occurrence of the skill with at most 50 characters of context on either
side, and one match may cover several nearby occurrences — so whenever the
skill occurs in the text the lowercased skill is contained in the combined
context, every raw match is at most 100 characters longer than the skill,
and `calculateConfidence` adds 0.2 to its base when the context contains
"experience" or "years" and 0.1 when it contains "expert" or "advanced",
cumulatively, clamped to at most 1.0. -/
theorem getSkillContext_amended_spec :
    (∀ t s : Str, s ≠ [] → jsIncludes (lowerStr t) (lowerStr s) = true →
      jsIncludes (getSkillContext t s) (lowerStr s) = true) ∧
    (∀ t s : Str, ∀ m ∈ contextMatches t s, m.length ≤ s.length + 100) ∧
    (∀ t s : Str, calculateConfidence t s =
      min (min ((countOcc t s : ℚ) * (3/10)) (9/10)
        + (if jsIncludes (getSkillContext t s) ("experience".toList) = true
              ∨ jsIncludes (getSkillContext t s) ("years".toList) = true then 2/10 else 0)
        + (if jsIncludes (getSkillContext t s) ("expert".toList) = true
              ∨ jsIncludes (getSkillContext t s) ("advanced".toList) = true then 1/10 else 0)) 1) := by
  refine ⟨?_, ?_, ?_⟩
  · intro t s hs h
    rw [jsIncludes_iff_contained] at h
    have hsw : ∃ i, startsWithCI s (t.drop i) = true := by
      obtain ⟨i, hpre⟩ := (infix_iff_exists_drop _ _).mp h
      refine ⟨i, ?_⟩
      unfold startsWithCI
      rw [lowerStr_drop]
      exact List.isPrefixOf_iff_prefix.mpr hpre
    obtain ⟨m, hmem, hinf⟩ :=
      contextScan_covers s hs (t.length + 1) t (Nat.lt_succ_self _) hsw
    rw [jsIncludes_iff_contained]
    have h2 : m <:+: joinSpace (contextMatches t s) :=
      joinSpace_contained (contextMatches t s) m hmem
    exact hinf.trans (lowerStr_contained h2)
  · intro t s m hm
    exact contextScan_len_bound s (t.length + 1) t m hm
  · intro t s
    unfold calculateConfidence hasExpBoost hasAdvBoost
    dsimp only
    simp only [Bool.or_eq_true]

/-- Witness for C8 (amended): skill "aws" in "AWS and 3 years": the
lowercased skill is contained in the combined context. -/
theorem getSkillContext_amended_spec_witness :
    ("aws".toList ≠ ([] : Str)) ∧
    (jsIncludes (lowerStr ("AWS and 3 years".toList)) (lowerStr ("aws".toList)) = true) ∧
    (jsIncludes (getSkillContext ("AWS and 3 years".toList) ("aws".toList))
      (lowerStr ("aws".toList)) = true) :=
  ⟨by decide, by decide,
    getSkillContext_amended_spec.1 ("AWS and 3 years".toList) ("aws".toList)
      (by decide) (by decide)⟩

end JobPortal
